import Mathlib

/-!
Verification development for the chalice-lang front end (src/lexer.cpp):
a hand-written lexer (`gettok`) and a recursive-descent parser with
precedence climbing (`ParseExpression`, `ParseBinOpRHS`, ...).

Modelling conventions, mirroring the C++ source:
* A character stream is a `List Int` of character codes; `getchar` at end of
  input yields `-1` (`EOF`).  The scanner state `LexState` carries the
  static `LastChar` cursor plus the globals `IdentifierStr` and `NumVal`.
* `gettok` returns the token as an `Int` exactly as the C++ function does:
  the negative `tok_` codes, or the raw character value for punctuation.
* The C++ `gettok` is recursive (after a comment it calls itself); the
  recursion is realised here by `skipJunk`, which fuses the whitespace
  loop, the comment-discarding loop and the tail call into one structural
  scan: after skipping, `gettok` classifies the first significant
  character exactly as the source does.
* `double` values produced by `strtod` are modelled as exact rationals;
  see `strtod` below.
* Parser functions take a fuel parameter (`none` = fuel exhausted); the
  termination theorem shows a fuel computed from the input always
  suffices, so the fuel is an artefact of totality, not of the model.
-/

/-- Token code `tok_eof` from the source. -/
def tok_eof : Int := -1

/-- Token code `tok_def` from the source. -/
def tok_def : Int := -2

/-- Token code for the `extern` keyword (`tok_extern` in the source). -/
def tok_ext : Int := -3

/-- Token code `tok_identifier` from the source. -/
def tok_identifier : Int := -4

/-- Token code `tok_number` from the source. -/
def tok_number : Int := -5

/-- C `isspace` on the character codes the scanner can see. -/
def isspace (c : Int) : Bool :=
  decide (c = 32 ∨ c = 9 ∨ c = 10 ∨ c = 11 ∨ c = 12 ∨ c = 13)

/-- C `isalpha`. -/
def isalpha (c : Int) : Bool :=
  decide ((65 ≤ c ∧ c ≤ 90) ∨ (97 ≤ c ∧ c ≤ 122))

/-- C `isdigit`. -/
def isdigit (c : Int) : Bool :=
  decide (48 ≤ c ∧ c ≤ 57)

/-- C `isalnum`. -/
def isalnum (c : Int) : Bool :=
  isalpha c || isdigit c

/-- C `isascii`. -/
def isascii (c : Int) : Bool :=
  decide (0 ≤ c ∧ c ≤ 127)

/-- The character class of the number-literal loop: digits and the dot. -/
def isNumChar (c : Int) : Bool :=
  isdigit c || decide (c = 46)

/-- Scanner state: the `static int LastChar` cursor, the unread input, and
the globals `IdentifierStr` and `NumVal` set by `gettok`. -/
structure LexState where
  lastChar : Int
  input : List Int
  identifierStr : String
  numVal : Rat
deriving DecidableEq

/-- The whitespace / comment skipping performed by `gettok`.  `mode = true`
means the scanner is inside a `#` comment (discarding until end of line or
end of input); `mode = false` is the ordinary whitespace loop, which on
seeing `#` enters a comment.  This fuses the two loops of the C++ `gettok`
together with its tail call after a comment: the fixpoint of that
recursion is exactly the first significant character and the input after
it. -/
def skipJunk (mode : Bool) (lc : Int) (l : List Int) : Int × List Int :=
  match mode, l with
  | true, [] => (-1, [])
  | true, c :: cs =>
    if c = -1 ∨ c = 10 ∨ c = 13 then skipJunk false c cs else skipJunk true c cs
  | false, l =>
    if isspace lc then
      match l with
      | [] => (-1, [])
      | c :: cs => skipJunk false c cs
    else if lc = 35 then
      match l with
      | [] => (-1, [])
      | c :: cs =>
        if c = -1 ∨ c = 10 ∨ c = 13 then skipJunk false c cs else skipJunk true c cs
    else (lc, l)

/-- The accumulation loops of `gettok` (`while (isalnum(LastChar = getchar()))`
and the digit/dot loop): returns the run of characters satisfying `p`, the
first character after the run (`-1` at end of input), and the rest of the
input. -/
def readRun (p : Int → Bool) (l : List Int) : List Int × Int × List Int :=
  match l with
  | [] => ([], -1, [])
  | c :: cs =>
    if p c then
      let r := readRun p cs
      (c :: r.1, r.2.1, r.2.2)
    else ([], c, cs)

/-- Render a run of character codes as the `std::string` it builds. -/
def codesToString (l : List Int) : String :=
  String.mk (l.map (fun c => Char.ofNat c.toNat))

/-- Decimal value of a digit run. -/
def digitsVal (l : List Int) : Nat :=
  l.foldl (fun a c => a * 10 + (c - 48).toNat) 0

/-- Modelled from the spec: the C library conversion `strtod` (not part of
src/), applied only to the runs of digits and dots the scanner builds.  It
parses the longest valid prefix, digits then optionally a dot and more
digits, stopping at a second dot, and yields `0` when no digit was
converted; the value is kept as an exact rational, floating-point rounding
is not modelled. -/
def strtod (s : List Int) : Rat :=
  let ip := s.takeWhile isdigit
  let rest := s.drop ip.length
  match rest with
  | 46 :: r2 =>
    let fp := r2.takeWhile isdigit
    (digitsVal ip : Rat) + (digitsVal fp : Rat) / ((10 : Rat) ^ fp.length)
  | _ => (digitsVal ip : Rat)

/-- The C++ `gettok`: skip whitespace and comments, then classify.  Returns
the token code and the new scanner state. -/
def gettok (st : LexState) : Int × LexState :=
  let r := skipJunk false st.lastChar st.input
  let c := r.1
  let l := r.2
  if isalpha c then
    let t := readRun isalnum l
    let s := codesToString (c :: t.1)
    (if s = "def" then tok_def else if s = "extern" then tok_ext else tok_identifier,
     ⟨t.2.1, t.2.2, s, st.numVal⟩)
  else if isdigit c || c = 46 then
    let t := readRun isNumChar l
    (tok_number, ⟨t.2.1, t.2.2, st.identifierStr, strtod (c :: t.1)⟩)
  else if c = -1 then
    (tok_eof, ⟨-1, l, st.identifierStr, st.numVal⟩)
  else
    match l with
    | [] => (c, ⟨-1, [], st.identifierStr, st.numVal⟩)
    | x :: xs => (c, ⟨x, xs, st.identifierStr, st.numVal⟩)

/-- Observable content of one token: the code together with the payload that
is meaningful for it (`IdentifierStr` for identifiers, `NumVal` for
numbers). -/
inductive TokView where
  | eofV : TokView
  | defKw : TokView
  | extKw : TokView
  | identV (s : String) : TokView
  | numV (v : Rat) : TokView
  | chV (c : Int) : TokView
deriving DecidableEq

/-- View of the token `t` just produced, reading payloads from the scanner
state after it. -/
def viewTok (t : Int) (st : LexState) : TokView :=
  if t = tok_def then TokView.defKw
  else if t = tok_ext then TokView.extKw
  else if t = tok_identifier then TokView.identV st.identifierStr
  else if t = tok_number then TokView.numV st.numVal
  else if t = tok_eof then TokView.eofV
  else TokView.chV t

/-- The token sequence the scanner produces from a state: repeated `gettok`
up to and including the end-of-input token (the source driver stops
there), bounded by fuel. -/
def tokenStream (fuel : Nat) (st : LexState) : List TokView :=
  match fuel with
  | 0 => []
  | f + 1 =>
    let r := gettok st
    if r.1 = tok_eof then [viewTok r.1 r.2]
    else viewTok r.1 r.2 :: tokenStream f r.2

/-- Character codes of a source string. -/
def strCodes (s : String) : List Int :=
  s.data.map (fun c => (c.toNat : Int))

/-- Scanner state at program start on the given source text: `LastChar` is
the space it is statically initialised to, nothing read yet. -/
def lexInit (s : String) : LexState :=
  ⟨32, strCodes s, "", 0⟩

/-- The AST node variants of the source (`NumberExprAST`, `VariableExprAST`,
`BinaryExprAST`, `CallExprAST`), as one closed inductive.  The binary
operator is stored as the `int` token value, as in `int BinOp = CurTok`. -/
inductive ExprAST where
  | NumberExprAST (val : Rat) : ExprAST
  | VariableExprAST (name : String) : ExprAST
  | BinaryExprAST (op : Int) (lhs rhs : ExprAST) : ExprAST
  | CallExprAST (callee : String) (args : List ExprAST) : ExprAST

/-- `PrototypeAST`: function name and argument names. -/
structure PrototypeAST where
  name : String
  args : List String
deriving DecidableEq

/-- `FunctionAST`: a prototype plus a body expression. -/
structure FunctionAST where
  proto : PrototypeAST
  body : ExprAST

/-- The precedence table `std::map<char, int> BinopPrecedence`, as an
association list with distinct keys (insertion order; lookups only ever
use the first hit, so ordering is immaterial). -/
def PrecMap : Type := List (Int × Int)

/-- `std::map::find`-style lookup used to model `operator[]`. -/
def assocFind (m : List (Int × Int)) (k : Int) : Option Int :=
  match m with
  | [] => none
  | (a, v) :: rest => if k = a then some v else assocFind rest k

/-- The state the precedence table is in after `main` has populated it. -/
def BinopPrecedence : List (Int × Int) :=
  [(60, 10), (43, 20), (45, 30), (42, 40)]

/-- `GetTokPrecedence` from the source: `-1` for non-ASCII tokens, otherwise
the stored precedence if positive, else `-1`.  Because the C++ reads
`BinopPrecedence[CurTok]` with `std::map::operator[]`, a lookup of an
ASCII key that is absent value-initialises an entry `(key, 0)`; the
possibly-grown map is returned alongside the result. -/
def GetTokPrecedence (curTok : Int) (m : List (Int × Int)) : Int × List (Int × Int) :=
  if isascii curTok then
    match assocFind m curTok with
    | some v => if v ≤ 0 then (-1, m) else (v, m)
    | none => (-1, m ++ [(curTok, 0)])
  else (-1, m)

/-- Parser state: the one-token lookahead `CurTok`, the scanner state, and
the precedence table (threaded because `operator[]` can grow it). -/
structure PSt where
  curTok : Int
  lex : LexState
  prec : List (Int × Int)
deriving DecidableEq

/-- `getNextToken`: pull one token from the scanner into `CurTok`. -/
def getNextToken (ps : PSt) : PSt :=
  ⟨(gettok ps.lex).1, (gettok ps.lex).2, ps.prec⟩

/-- `ParseNumberExpr`: build a `NumberExprAST` from `NumVal` and consume the
number token. -/
def ParseNumberExpr (ps : PSt) : Except String ExprAST × PSt :=
  (Except.ok (ExprAST.NumberExprAST ps.lex.numVal), getNextToken ps)

/-- The parameter-name loop of `ParsePrototype`:
`while (getNextToken() == tok_identifier) ArgNames.push_back(IdentifierStr)`. -/
def readArgNames (fuel : Nat) (acc : List String) (ps : PSt) :
    Option (List String × PSt) :=
  match fuel with
  | 0 => none
  | f + 1 =>
    let ps1 := getNextToken ps
    if ps1.curTok = tok_identifier then readArgNames f (acc ++ [ps1.lex.identifierStr]) ps1
    else some (acc, ps1)

/-- `ParsePrototype`: identifier, `(`, a run of identifiers, `)`. -/
def ParsePrototype (fuel : Nat) (ps : PSt) :
    Option (Except String PrototypeAST × PSt) :=
  match fuel with
  | 0 => none
  | f + 1 =>
    if ps.curTok = tok_identifier then
      let fnName := ps.lex.identifierStr
      let ps1 := getNextToken ps
      if ps1.curTok = 40 then
        match readArgNames f [] ps1 with
        | none => none
        | some (argNames, ps2) =>
          if ps2.curTok = 41 then
            some (Except.ok ⟨fnName, argNames⟩, getNextToken ps2)
          else some (Except.error "Expected \x27)\x27 in prototype", ps2)
      else some (Except.error "Expected \x27(\x27 in prototype", ps1)
    else some (Except.error "Expected function name in prototype", ps)

mutual

/-- `ParseExpression`: a primary followed by the precedence-climbing loop
started at minimal precedence `0`. -/
def ParseExpression (fuel : Nat) (ps : PSt) : Option (Except String ExprAST × PSt) :=
  match fuel with
  | 0 => none
  | f + 1 =>
    match ParsePrimary f ps with
    | none => none
    | some (Except.error e, ps1) => some (Except.error e, ps1)
    | some (Except.ok lhs, ps1) => ParseBinOpRHS f 0 lhs ps1

/-- `ParsePrimary`: dispatch on `CurTok` exactly as the source `switch`. -/
def ParsePrimary (fuel : Nat) (ps : PSt) : Option (Except String ExprAST × PSt) :=
  match fuel with
  | 0 => none
  | f + 1 =>
    if ps.curTok = tok_identifier then ParseIdentifierExpr f ps
    else if ps.curTok = tok_number then some (ParseNumberExpr ps)
    else if ps.curTok = 40 then ParseParenExpr f ps
    else some (Except.error "Unknown token: expected an expression", ps)

/-- `ParseParenExpr`: consume `(`, parse an expression, require `)`. -/
def ParseParenExpr (fuel : Nat) (ps : PSt) : Option (Except String ExprAST × PSt) :=
  match fuel with
  | 0 => none
  | f + 1 =>
    let ps1 := getNextToken ps
    match ParseExpression f ps1 with
    | none => none
    | some (Except.error e, ps2) => some (Except.error e, ps2)
    | some (Except.ok v, ps2) =>
      if ps2.curTok = 41 then some (Except.ok v, getNextToken ps2)
      else some (Except.error "expected \x27)\x27", ps2)

/-- `ParseIdentifierExpr`: a bare variable reference, or a call when the
identifier is followed by `(`. -/
def ParseIdentifierExpr (fuel : Nat) (ps : PSt) : Option (Except String ExprAST × PSt) :=
  match fuel with
  | 0 => none
  | f + 1 =>
    let idName := ps.lex.identifierStr
    let ps1 := getNextToken ps
    if ps1.curTok = 40 then
      let ps2 := getNextToken ps1
      if ps2.curTok = 41 then
        some (Except.ok (ExprAST.CallExprAST idName []), getNextToken ps2)
      else
        match ParseArgs f [] ps2 with
        | none => none
        | some (Except.error e, ps3) => some (Except.error e, ps3)
        | some (Except.ok args, ps3) =>
          some (Except.ok (ExprAST.CallExprAST idName args), getNextToken ps3)
    else some (Except.ok (ExprAST.VariableExprAST idName), ps1)

/-- The argument loop inside `ParseIdentifierExpr`: expressions separated by
commas until `)` (the closing `)` is consumed by the caller). -/
def ParseArgs (fuel : Nat) (acc : List ExprAST) (ps : PSt) :
    Option (Except String (List ExprAST) × PSt) :=
  match fuel with
  | 0 => none
  | f + 1 =>
    match ParseExpression f ps with
    | none => none
    | some (Except.error e, ps1) => some (Except.error e, ps1)
    | some (Except.ok arg, ps1) =>
      if ps1.curTok = 41 then some (Except.ok (acc ++ [arg]), ps1)
      else if ps1.curTok = 44 then ParseArgs f (acc ++ [arg]) (getNextToken ps1)
      else some (Except.error "Expected \x27)\x27 or \x27,\x27 in argument list", ps1)

/-- `ParseBinOpRHS`, the precedence-climbing loop.  The `while (true)` of
the source is the tail call with unchanged `exprPrec`. -/
def ParseBinOpRHS (fuel : Nat) (exprPrec : Int) (lhs : ExprAST) (ps : PSt) :
    Option (Except String ExprAST × PSt) :=
  match fuel with
  | 0 => none
  | f + 1 =>
    let r := GetTokPrecedence ps.curTok ps.prec
    let tokPrec := r.1
    let ps0 : PSt := ⟨ps.curTok, ps.lex, r.2⟩
    if tokPrec < exprPrec then some (Except.ok lhs, ps0)
    else
      let binOp := ps0.curTok
      let ps1 := getNextToken ps0
      match ParsePrimary f ps1 with
      | none => none
      | some (Except.error e, ps2) => some (Except.error e, ps2)
      | some (Except.ok rhs, ps2) =>
        let r2 := GetTokPrecedence ps2.curTok ps2.prec
        let nextPrec := r2.1
        let ps3 : PSt := ⟨ps2.curTok, ps2.lex, r2.2⟩
        if tokPrec < nextPrec then
          match ParseBinOpRHS f (tokPrec + 1) rhs ps3 with
          | none => none
          | some (Except.error e, ps4) => some (Except.error e, ps4)
          | some (Except.ok rhs2, ps4) =>
            ParseBinOpRHS f exprPrec (ExprAST.BinaryExprAST binOp lhs rhs2) ps4
        else ParseBinOpRHS f exprPrec (ExprAST.BinaryExprAST binOp lhs rhs) ps3

end

/-- `ParseDefinition`: `def` prototype expression. -/
def ParseDefinition (fuel : Nat) (ps : PSt) :
    Option (Except String FunctionAST × PSt) :=
  match fuel with
  | 0 => none
  | f + 1 =>
    let ps1 := getNextToken ps
    match ParsePrototype f ps1 with
    | none => none
    | some (Except.error e, ps2) => some (Except.error e, ps2)
    | some (Except.ok proto, ps2) =>
      match ParseExpression f ps2 with
      | none => none
      | some (Except.error e, ps3) => some (Except.error e, ps3)
      | some (Except.ok body, ps3) => some (Except.ok ⟨proto, body⟩, ps3)

/-- `ParseExtern`: consume the keyword and parse a prototype. -/
def ParseExtern (fuel : Nat) (ps : PSt) :
    Option (Except String PrototypeAST × PSt) :=
  match fuel with
  | 0 => none
  | f + 1 => ParsePrototype f (getNextToken ps)

/-- `ParseTopLevelExpr`: wrap a bare expression in a `FunctionAST` with the
anonymous prototype. -/
def ParseTopLevelExpr (fuel : Nat) (ps : PSt) :
    Option (Except String FunctionAST × PSt) :=
  match fuel with
  | 0 => none
  | f + 1 =>
    match ParseExpression f ps with
    | none => none
    | some (Except.error e, ps1) => some (Except.error e, ps1)
    | some (Except.ok e, ps1) => some (Except.ok ⟨⟨"", []⟩, e⟩, ps1)

/-- Parser state after `main` has populated `BinopPrecedence` and primed the
lookahead with the first `getNextToken()` on the given source text
(`CurTok` is the zero-initialised static before that call). -/
def initPSt (s : String) : PSt :=
  getNextToken ⟨0, lexInit s, BinopPrecedence⟩

/-- Weight of a scanner state: unread characters plus one for a pending
significant `LastChar`.  Every token other than end-of-input strictly
decreases it. -/
def lexWeight (st : LexState) : Nat :=
  st.input.length + (if st.lastChar = -1 then 0 else 1)

/-- Weight of a parser state: scanner weight plus one for a lookahead that
is not yet end-of-input. -/
def psMeasure (ps : PSt) : Nat :=
  lexWeight ps.lex + (if ps.curTok = tok_eof then 0 else 1)

/-- Characters that do not end a `#` comment. -/
def noTerm (c : Int) : Bool :=
  decide (¬(c = -1 ∨ c = 10 ∨ c = 13))

/-- A run of comment characters: none of them ends the comment. -/
def cleanChars (l : List Int) : Bool :=
  l.all noTerm

/-- A run of genuine characters: none is the `EOF` pseudo-character. -/
def noEOFChar (l : List Int) : Bool :=
  l.all fun c => decide (c ≠ -1)

/-- Correspondence between a scan of a stream containing the comment
`# C` (terminated by a newline) and a scan of the same stream with the
comment characters removed.  Either the two states are equal (the scans
have converged past the comment), or both sit at the same position before
the comment, or the left scan sits exactly at the `#` while the right one
sits at the terminating newline. -/
def lexSim (C B : List Int) (s1 s2 : LexState) : Prop :=
  s1 = s2 ∨
  (∃ lc A ids nv, noEOFChar A = true ∧
    s1 = ⟨lc, A ++ 35 :: (C ++ 10 :: B), ids, nv⟩ ∧
    s2 = ⟨lc, A ++ 10 :: B, ids, nv⟩) ∨
  (∃ ids nv, s1 = ⟨35, C ++ 10 :: B, ids, nv⟩ ∧ s2 = ⟨10, B, ids, nv⟩)

/-- Character codes of the tail of an equal-precedence chain
`- d1 - d2 - ... - dn` of single-digit numbers joined by `-`. -/
def chainCodes (ds : List Nat) : List Int :=
  match ds with
  | [] => []
  | d :: rest => 45 :: (48 + (d : Int)) :: chainCodes rest

/-- The strictly left-associated tree the chain should parse to: each
further operand attaches as the right child of a new `-` node whose left
child is everything parsed so far. -/
def chainAST (e : ExprAST) (ds : List Nat) : ExprAST :=
  match ds with
  | [] => e
  | d :: rest => chainAST (ExprAST.BinaryExprAST 45 e (ExprAST.NumberExprAST (d : Rat))) rest

/-- Lookup in an extended association list: a hit in the prefix wins. -/
theorem assocFind_append_some {m : List (Int × Int)} {k v : Int}
    (h : assocFind m k = some v) (m2 : List (Int × Int)) :
    assocFind (m ++ m2) k = some v := by
  induction m with
  | nil => simp [assocFind] at h
  | cons p rest ih =>
    rw [List.cons_append]
    rw [assocFind] at h ⊢
    by_cases hk : k = p.1
    · simpa [hk] using h
    · simp only [hk, if_false] at h ⊢
      exact ih h

/-- Lookup in an extended association list falls through on a miss. -/
theorem assocFind_append_none {m : List (Int × Int)} {k : Int}
    (h : assocFind m k = none) (m2 : List (Int × Int)) :
    assocFind (m ++ m2) k = assocFind m2 k := by
  induction m with
  | nil => simp [assocFind]
  | cons p rest ih =>
    rw [assocFind] at h
    rw [List.cons_append, assocFind]
    by_cases hk : k = p.1
    · simp [hk] at h
    · simp only [hk, if_false] at h ⊢
      exact ih h

/-- C4.  After `main` has populated the table, `GetTokPrecedence` yields
exactly 10 for `<`, 20 for `+`, 30 for `-`, 40 for `*`, and the sentinel
`-1` for every other token value, including the negative token codes. -/
theorem getTokPrecedence_initial (c : Int) :
    (GetTokPrecedence c BinopPrecedence).1 =
      if c = 60 then 10 else if c = 43 then 20 else if c = 45 then 30
      else if c = 42 then 40 else -1 := by
  by_cases h1 : c = 60
  · subst h1; decide
  by_cases h2 : c = 43
  · subst h2; decide
  by_cases h3 : c = 45
  · subst h3; decide
  by_cases h4 : c = 42
  · subst h4; decide
  simp only [h1, h2, h3, h4, if_false]
  rw [GetTokPrecedence]
  simp only [BinopPrecedence, assocFind, h1, h2, h3, h4, if_false]
  split <;> rfl

/-- C3, counterexample.  Looking up `(` (token value 40, which the parser
passes to `GetTokPrecedence` whenever an expression starts with a
parenthesis) mutates the table: `std::map::operator[]` value-initialises
an entry `('(', 0)`. -/
theorem getTokPrecedence_mutates_table :
    (GetTokPrecedence 40 BinopPrecedence).2 ≠ BinopPrecedence := by
  decide

/-- The table after a `GetTokPrecedence` call: unchanged unless an absent
ASCII key was probed, in which case a zero entry for it is appended. -/
theorem getTokPrecedence_snd (t : Int) (m : List (Int × Int)) :
    (GetTokPrecedence t m).2 =
      if isascii t = true ∧ assocFind m t = none then m ++ [(t, 0)] else m := by
  rw [GetTokPrecedence]
  by_cases ht : isascii t
  · rw [if_pos ht]
    cases hf : assocFind m t with
    | some v =>
      have hne : ¬(isascii t = true ∧ (some v : Option Int) = none) := by simp
      rw [if_neg hne]
      by_cases hv : v ≤ 0 <;> simp [hv]
    | none => simp [ht, hf]
  · simp [ht]

/-- C3, amended.  A `GetTokPrecedence` call never changes the result of any
later lookup and never changes an entry already present; the only
mutation is that probing an absent ASCII key appends a zero entry for
it. -/
theorem getTokPrecedence_preserves_lookups (t : Int) (m : List (Int × Int)) :
    (∀ u : Int,
      (GetTokPrecedence u (GetTokPrecedence t m).2).1 = (GetTokPrecedence u m).1) ∧
    (∀ k v : Int, assocFind m k = some v →
      assocFind (GetTokPrecedence t m).2 k = some v) := by
  have hsnd := getTokPrecedence_snd t m
  by_cases hcase : isascii t = true ∧ assocFind m t = none
  · rw [if_pos hcase] at hsnd
    rw [hsnd]
    refine ⟨?_, fun k v h => assocFind_append_some h _⟩
    intro u
    rw [GetTokPrecedence, GetTokPrecedence]
    by_cases hu : isascii u
    · simp only [hu, if_true]
      cases hg : assocFind m u with
      | some w =>
        rw [assocFind_append_some hg]
        by_cases hw : w ≤ 0 <;> simp [hw]
      | none =>
        rw [assocFind_append_none hg]
        by_cases hut : u = t
        · subst hut; simp [assocFind]
        · simp [assocFind, hut]
    · simp [hu]
  · rw [if_neg hcase] at hsnd
    rw [hsnd]
    exact ⟨fun _ => rfl, fun _ _ h => h⟩

/-- Witness for the amended C3 statement at concrete inputs: probing `(`
does not change what `+` resolves to, and keeps the `+` entry intact. -/
theorem getTokPrecedence_preserves_lookups_w :
    (GetTokPrecedence 43 (GetTokPrecedence 40 BinopPrecedence).2).1 =
      (GetTokPrecedence 43 BinopPrecedence).1 ∧
    assocFind (GetTokPrecedence 40 BinopPrecedence).2 43 = some 20 :=
  ⟨(getTokPrecedence_preserves_lookups 40 BinopPrecedence).1 43,
   (getTokPrecedence_preserves_lookups 40 BinopPrecedence).2 43 20 (by decide)⟩

/-- C1.  Precedence climbing: `1+2*3` parses with the multiplication nested
below the addition, and `1*2+3` with the multiplication as the left
operand of the addition (token values: `+` = 43, `*` = 42). -/
theorem parse_precedence_examples :
    (ParseExpression 64 (initPSt "1+2*3")).map Prod.fst =
      some (Except.ok (ExprAST.BinaryExprAST 43 (ExprAST.NumberExprAST 1)
        (ExprAST.BinaryExprAST 42 (ExprAST.NumberExprAST 2) (ExprAST.NumberExprAST 3)))) ∧
    (ParseExpression 64 (initPSt "1*2+3")).map Prod.fst =
      some (Except.ok (ExprAST.BinaryExprAST 43
        (ExprAST.BinaryExprAST 42 (ExprAST.NumberExprAST 1) (ExprAST.NumberExprAST 2))
        (ExprAST.NumberExprAST 3))) :=
  ⟨rfl, rfl⟩

/-- C6.  `def foo(x y) x+y` parses to a `FunctionAST` with prototype name
`foo`, parameters `[x, y]` in declaration order, and body
`x + y` (token value of `+` is 43). -/
theorem parse_definition_example :
    (ParseDefinition 64 (initPSt "def foo(x y) x+y")).map Prod.fst =
      some (Except.ok ⟨⟨"foo", ["x", "y"]⟩,
        ExprAST.BinaryExprAST 43 (ExprAST.VariableExprAST "x")
          (ExprAST.VariableExprAST "y")⟩) :=
  rfl

/-- C5.  A parenthesised expression whose `)` is missing fails with the
diagnostic naming the expected `)` and yields no AST; in general, once
`(` is consumed and the inner expression parses, `ParseParenExpr`
succeeds exactly when the current token is `)`, and otherwise fails with
that diagnostic. -/
theorem parse_paren_missing_close :
    (ParsePrimary 64 (initPSt "(1+2")).map Prod.fst =
      some (Except.error "expected \x27)\x27") ∧
    ∀ (f : Nat) (ps : PSt) (e : ExprAST) (ps2 : PSt),
      ParseExpression f (getNextToken ps) = some (Except.ok e, ps2) →
      ParseParenExpr (f + 1) ps =
        some (if ps2.curTok = 41 then (Except.ok e, getNextToken ps2)
              else (Except.error "expected \x27)\x27", ps2)) := by
  refine ⟨rfl, ?_⟩
  intro f ps e ps2 h
  rw [ParseParenExpr, h]
  by_cases hc : ps2.curTok = 41
  · simp [hc]
  · simp [hc]

/-- Witness for the general conjunct of C5 at the input `(1)`. -/
theorem parse_paren_missing_close_w :
    ParseParenExpr 11 (initPSt "(1)") =
      some (if ((ParseExpression 10 (getNextToken (initPSt "(1)"))).getD
          (Except.error "", initPSt "(1)")).2.curTok = 41 then
          (Except.ok (ExprAST.NumberExprAST 1),
           getNextToken ((ParseExpression 10 (getNextToken (initPSt "(1)"))).getD
             (Except.error "", initPSt "(1)")).2)
        else (Except.error "expected \x27)\x27",
          ((ParseExpression 10 (getNextToken (initPSt "(1)"))).getD
            (Except.error "", initPSt "(1)")).2)) :=
  parse_paren_missing_close.2 10 (initPSt "(1)") (ExprAST.NumberExprAST 1) _ rfl

/-- C10.  An identifier directly followed by `(` and `)` parses as a call
with an empty argument list; concretely `foo()` gives `Call("foo", [])`. -/
theorem parse_empty_call :
    (ParseIdentifierExpr 64 (initPSt "foo()")).map Prod.fst =
      some (Except.ok (ExprAST.CallExprAST "foo" [])) ∧
    ∀ (f : Nat) (ps : PSt),
      ps.curTok = tok_identifier →
      (getNextToken ps).curTok = 40 →
      (getNextToken (getNextToken ps)).curTok = 41 →
      ParseIdentifierExpr (f + 1) ps =
        some (Except.ok (ExprAST.CallExprAST ps.lex.identifierStr []),
          getNextToken (getNextToken (getNextToken ps))) := by
  refine ⟨rfl, ?_⟩
  intro f ps h1 h2 h3
  rw [ParseIdentifierExpr]
  simp [h2, h3]

/-- Witness for the general conjunct of C10 at the input `foo()`. -/
theorem parse_empty_call_w :
    ParseIdentifierExpr 5 (initPSt "foo()") =
      some (Except.ok (ExprAST.CallExprAST (initPSt "foo()").lex.identifierStr []),
        getNextToken (getNextToken (getNextToken (initPSt "foo()")))) :=
  parse_empty_call.2 4 (initPSt "foo()") rfl rfl rfl

/-- The pending-character weight is at most one. -/
theorem pendingWeight_le_one (x : Int) : (if x = -1 then 0 else 1) ≤ 1 := by
  split <;> omega

/-- Skipping whitespace and comments never increases the scanner weight. -/
theorem skipJunk_weight (l : List Int) : ∀ (mode : Bool) (lc : Int),
    (skipJunk mode lc l).2.length + (if (skipJunk mode lc l).1 = -1 then 0 else 1) ≤
      l.length + (if lc = -1 then 0 else 1) := by
  induction l with
  | nil =>
    intro mode lc
    cases mode with
    | true => simp [skipJunk]
    | false =>
      rw [skipJunk]
      split
      · simp
      · split
        · simp
        · exact le_refl _
  | cons c cs ih =>
    intro mode lc
    have hc := pendingWeight_le_one c
    have hlc : (0:Nat) ≤ if lc = -1 then 0 else 1 := Nat.zero_le _
    cases mode with
    | true =>
      rw [skipJunk]
      split
      · have := ih false c; simp only [List.length_cons]; omega
      · have := ih true c; simp only [List.length_cons]; omega
    | false =>
      rw [skipJunk]
      split
      · have := ih false c; simp only [List.length_cons]; omega
      · split
        · split
          · have := ih false c; simp only [List.length_cons]; omega
          · have := ih true c; simp only [List.length_cons]; omega
        · exact le_refl _

/-- The accumulation loop strictly consumes the pending character. -/
theorem readRun_weight (p : Int → Bool) (l : List Int) :
    (readRun p l).2.2.length + (if (readRun p l).2.1 = -1 then 0 else 1) ≤ l.length := by
  induction l with
  | nil => simp [readRun]
  | cons c cs ih =>
    rw [readRun]
    have hc := pendingWeight_le_one c
    split
    · simp only [List.length_cons]; omega
    · simp only [List.length_cons]; omega

/-- Alpha characters are genuine characters. -/
theorem isalpha_ne_eof {c : Int} (h : isalpha c = true) : c ≠ -1 := by
  simp [isalpha] at h; omega

/-- Digit characters are genuine characters. -/
theorem isdigit_ne_eof {c : Int} (h : isdigit c = true) : c ≠ -1 := by
  simp [isdigit] at h; omega

/-- Unfolding `gettok` in the identifier/keyword branch. -/
theorem gettok_alpha {c : Int} {l0 : List Int} (st : LexState)
    (hr : skipJunk false st.lastChar st.input = (c, l0)) (ha : isalpha c = true) :
    gettok st =
      (if codesToString (c :: (readRun isalnum l0).1) = "def" then tok_def
       else if codesToString (c :: (readRun isalnum l0).1) = "extern" then tok_ext
       else tok_identifier,
       ⟨(readRun isalnum l0).2.1, (readRun isalnum l0).2.2,
        codesToString (c :: (readRun isalnum l0).1), st.numVal⟩) := by
  rw [gettok, hr]
  simp [ha]

/-- Unfolding `gettok` in the number branch. -/
theorem gettok_num {c : Int} {l0 : List Int} (st : LexState)
    (hr : skipJunk false st.lastChar st.input = (c, l0)) (ha : isalpha c = false)
    (hd : (isdigit c || decide (c = 46)) = true) :
    gettok st =
      (tok_number,
       ⟨(readRun isNumChar l0).2.1, (readRun isNumChar l0).2.2,
        st.identifierStr, strtod (c :: (readRun isNumChar l0).1)⟩) := by
  rw [gettok, hr]
  simp [ha, hd]

/-- Unfolding `gettok` at end of input. -/
theorem gettok_eof {c : Int} {l0 : List Int} (st : LexState)
    (hr : skipJunk false st.lastChar st.input = (c, l0)) (ha : isalpha c = false)
    (hd : (isdigit c || decide (c = 46)) = false) (he : c = -1) :
    gettok st = (tok_eof, ⟨-1, l0, st.identifierStr, st.numVal⟩) := by
  subst he
  rw [gettok, hr]
  simp [ha, hd, isdigit]

/-- Unfolding `gettok` in the punctuation branch with input left. -/
theorem gettok_ch_cons {c x : Int} {xs : List Int} (st : LexState)
    (hr : skipJunk false st.lastChar st.input = (c, x :: xs)) (ha : isalpha c = false)
    (hd : (isdigit c || decide (c = 46)) = false) (he : ¬(c = -1)) :
    gettok st = (c, ⟨x, xs, st.identifierStr, st.numVal⟩) := by
  rw [gettok, hr]
  simp [ha, hd, he]

/-- Unfolding `gettok` in the punctuation branch at the last character. -/
theorem gettok_ch_nil {c : Int} (st : LexState)
    (hr : skipJunk false st.lastChar st.input = (c, [])) (ha : isalpha c = false)
    (hd : (isdigit c || decide (c = 46)) = false) (he : ¬(c = -1)) :
    gettok st = (c, ⟨-1, [], st.identifierStr, st.numVal⟩) := by
  rw [gettok, hr]
  simp [ha, hd, he]

/-- One `gettok` never increases the scanner weight, and strictly decreases
it unless it produced the end-of-input token. -/
theorem gettok_weight (st : LexState) :
    lexWeight (gettok st).2 ≤ lexWeight st ∧
    ((gettok st).1 ≠ tok_eof → lexWeight (gettok st).2 < lexWeight st) := by
  have hsk := skipJunk_weight st.input false st.lastChar
  rcases hr : skipJunk false st.lastChar st.input with ⟨c, l0⟩
  rw [hr] at hsk
  simp only at hsk
  have hwst : lexWeight st = st.input.length + (if st.lastChar = -1 then 0 else 1) := rfl
  by_cases ha : isalpha c
  · have hne : c ≠ -1 := isalpha_ne_eof ha
    have h1 : (if c = (-1:Int) then (0:Nat) else 1) = 1 := by simp [hne]
    have hrr := readRun_weight isalnum l0
    rw [gettok_alpha st hr ha]
    simp only [lexWeight]
    constructor
    · omega
    · intro; omega
  · have ha' : isalpha c = false := by simpa using ha
    by_cases hd : (isdigit c || decide (c = 46)) = true
    · have hne : c ≠ -1 := by
        rcases Bool.or_eq_true_iff.mp hd with h | h
        · exact isdigit_ne_eof h
        · simp at h; omega
      have h1 : (if c = (-1:Int) then (0:Nat) else 1) = 1 := by simp [hne]
      have hrr := readRun_weight isNumChar l0
      rw [gettok_num st hr ha' hd]
      simp only [lexWeight]
      constructor
      · omega
      · intro; omega
    · have hd' : (isdigit c || decide (c = 46)) = false := by simpa using hd
      by_cases he : c = -1
      · subst he
        rw [gettok_eof st hr ha' hd' rfl]
        have hg : lexWeight (⟨-1, l0, st.identifierStr, st.numVal⟩ : LexState) = l0.length := by
          simp [lexWeight]
        rw [hg]
        simp only [if_pos rfl] at hsk
        constructor
        · omega
        · intro hcon
          exact absurd rfl hcon
      · have h1 : (if c = (-1:Int) then (0:Nat) else 1) = 1 := by simp [he]
        rw [h1] at hsk
        cases l0 with
        | nil =>
          rw [gettok_ch_nil st hr ha' hd' he]
          have hg : lexWeight (⟨-1, [], st.identifierStr, st.numVal⟩ : LexState) = 0 := by
            simp [lexWeight]
          rw [hg]
          simp only [List.length_nil] at hsk
          constructor
          · omega
          · intro; omega
        | cons x xs =>
          have hx := pendingWeight_le_one x
          rw [gettok_ch_cons st hr ha' hd' he]
          have hg : lexWeight (⟨x, xs, st.identifierStr, st.numVal⟩ : LexState) =
              xs.length + (if x = -1 then 0 else 1) := rfl
          rw [hg]
          simp only [List.length_cons] at hsk
          constructor
          · omega
          · intro; omega

/-- A parser state measure ignores the precedence table. -/
theorem psMeasure_mk (c : Int) (lx : LexState) (m : List (Int × Int)) :
    psMeasure ⟨c, lx, m⟩ = lexWeight lx + (if c = tok_eof then 0 else 1) := rfl

/-- Advancing the lookahead never increases the parser measure. -/
theorem getNextToken_measure_le (ps : PSt) :
    psMeasure (getNextToken ps) ≤ psMeasure ps := by
  have hg := gettok_weight ps.lex
  rw [getNextToken, psMeasure_mk]
  have h1 := pendingWeight_le_one ps.curTok
  by_cases he : (gettok ps.lex).1 = tok_eof
  · rw [if_pos he]
    rw [psMeasure]
    omega
  · rw [if_neg he]
    have := hg.2 he
    rw [psMeasure]
    omega

/-- Advancing from a non-end-of-input lookahead strictly decreases the
parser measure. -/
theorem getNextToken_measure_lt (ps : PSt) (h : ps.curTok ≠ tok_eof) :
    psMeasure (getNextToken ps) < psMeasure ps := by
  have hg := gettok_weight ps.lex
  rw [getNextToken, psMeasure_mk]
  rw [psMeasure, if_neg h]
  by_cases he : (gettok ps.lex).1 = tok_eof
  · rw [if_pos he]
    omega
  · rw [if_neg he]
    have := hg.2 he
    omega

/-- Advancing never increases the scanner weight. -/
theorem getNextToken_weight_le (ps : PSt) :
    lexWeight (getNextToken ps).lex ≤ lexWeight ps.lex :=
  (gettok_weight ps.lex).1

/-- If the token pulled in is not end-of-input, the scanner weight strictly
decreased. -/
theorem getNextToken_weight_lt (ps : PSt) (h : (getNextToken ps).curTok ≠ tok_eof) :
    lexWeight (getNextToken ps).lex < lexWeight ps.lex :=
  (gettok_weight ps.lex).2 h

/-- The run of parameter names only consumes tokens. -/
theorem readArgNames_measure : ∀ (f : Nat) (acc : List String) (ps : PSt)
    (r : List String × PSt), readArgNames f acc ps = some r →
    psMeasure r.2 ≤ psMeasure ps := by
  intro f
  induction f with
  | zero => intro acc ps r h; simp [readArgNames] at h
  | succ f ih =>
    intro acc ps r h
    rw [readArgNames] at h
    by_cases hid : (getNextToken ps).curTok = tok_identifier
    · rw [if_pos hid] at h
      exact le_trans (ih _ _ _ h) (getNextToken_measure_le ps)
    · rw [if_neg hid] at h
      injection h with h
      subst h
      exact getNextToken_measure_le ps

/-- The run of parameter names terminates once the fuel covers the scanner
weight. -/
theorem readArgNames_total : ∀ (f : Nat) (acc : List String) (ps : PSt),
    lexWeight ps.lex < f → readArgNames f acc ps ≠ none := by
  intro f
  induction f with
  | zero => intro acc ps h; omega
  | succ f ih =>
    intro acc ps h
    rw [readArgNames]
    by_cases hid : (getNextToken ps).curTok = tok_identifier
    · rw [if_pos hid]
      refine ih _ _ ?_
      have hlt : lexWeight (getNextToken ps).lex < lexWeight ps.lex :=
        getNextToken_weight_lt ps (by rw [hid]; decide)
      omega
    · rw [if_neg hid]
      exact Option.noConfusion

/-- `ParsePrototype` only consumes tokens. -/
theorem parsePrototype_measure (f : Nat) (ps : PSt) (r : Except String PrototypeAST × PSt)
    (h : ParsePrototype f ps = some r) : psMeasure r.2 ≤ psMeasure ps := by
  cases f with
  | zero => simp [ParsePrototype] at h
  | succ f =>
    rw [ParsePrototype] at h
    by_cases h1 : ps.curTok = tok_identifier
    · rw [if_pos h1] at h
      by_cases h2 : (getNextToken ps).curTok = 40
      · rw [if_pos h2] at h
        cases hra : readArgNames f [] (getNextToken ps) with
        | none =>
          rw [hra] at h
          exact Option.noConfusion h
        | some pr =>
          obtain ⟨argNames, ps2⟩ := pr
          rw [hra] at h
          try dsimp only at h
          have hm2 : psMeasure ps2 ≤ psMeasure ps :=
            le_trans (readArgNames_measure f [] (getNextToken ps) (argNames, ps2) hra)
              (getNextToken_measure_le ps)
          by_cases h3 : ps2.curTok = 41
          · rw [if_pos h3] at h
            injection h with h
            subst h
            exact le_trans (getNextToken_measure_le ps2) hm2
          · rw [if_neg h3] at h
            injection h with h
            subst h
            exact hm2
      · rw [if_neg h2] at h
        injection h with h
        subst h
        exact getNextToken_measure_le ps
    · rw [if_neg h1] at h
      injection h with h
      subst h
      exact le_refl _

/-- `ParsePrototype` terminates once the fuel covers the scanner weight plus
two. -/
theorem parsePrototype_total (f : Nat) (ps : PSt)
    (h : lexWeight ps.lex + 2 ≤ f) : ParsePrototype f ps ≠ none := by
  cases f with
  | zero => omega
  | succ f =>
    rw [ParsePrototype]
    by_cases h1 : ps.curTok = tok_identifier
    · rw [if_pos h1]
      by_cases h2 : (getNextToken ps).curTok = 40
      · rw [if_pos h2]
        have hw : lexWeight (getNextToken ps).lex ≤ lexWeight ps.lex :=
          getNextToken_weight_le ps
        cases hra : readArgNames f [] (getNextToken ps) with
        | none =>
          exact absurd hra (readArgNames_total f [] (getNextToken ps) (by omega))
        | some pr =>
          obtain ⟨argNames, ps2⟩ := pr
          dsimp only
          by_cases h3 : ps2.curTok = 41
          · rw [if_pos h3]
            exact Option.noConfusion
          · rw [if_neg h3]
            exact Option.noConfusion
      · rw [if_neg h2]
        exact Option.noConfusion
    · rw [if_neg h1]
      exact Option.noConfusion

/-- Every parser function only consumes tokens: whatever it returns, the
measure of the resulting state is at most the measure of the input
state. -/
theorem parse_measure : ∀ f : Nat,
    (∀ ps r, ParseExpression f ps = some r → psMeasure r.2 ≤ psMeasure ps) ∧
    (∀ ps r, ParsePrimary f ps = some r → psMeasure r.2 ≤ psMeasure ps) ∧
    (∀ ps r, ParseParenExpr f ps = some r → psMeasure r.2 ≤ psMeasure ps) ∧
    (∀ ps r, ParseIdentifierExpr f ps = some r → psMeasure r.2 ≤ psMeasure ps) ∧
    (∀ acc ps r, ParseArgs f acc ps = some r → psMeasure r.2 ≤ psMeasure ps) ∧
    (∀ p lhs ps r, ParseBinOpRHS f p lhs ps = some r → psMeasure r.2 ≤ psMeasure ps) := by
  intro f
  induction f with
  | zero =>
    refine ⟨?_, ?_, ?_, ?_, ?_, ?_⟩
    · intro ps r h; simp [ParseExpression] at h
    · intro ps r h; simp [ParsePrimary] at h
    · intro ps r h; simp [ParseParenExpr] at h
    · intro ps r h; simp [ParseIdentifierExpr] at h
    · intro acc ps r h; simp [ParseArgs] at h
    · intro p lhs ps r h; simp [ParseBinOpRHS] at h
  | succ f ih =>
    obtain ⟨ihE, ihP, ihParen, ihI, ihA, ihB⟩ := ih
    refine ⟨?_, ?_, ?_, ?_, ?_, ?_⟩
    · -- ParseExpression
      intro ps r h
      rw [ParseExpression] at h
      cases hp : ParsePrimary f ps with
      | none => rw [hp] at h; exact Option.noConfusion h
      | some pr =>
        obtain ⟨res, ps1⟩ := pr
        rw [hp] at h
        cases res with
        | error e =>
          try dsimp only at h
          injection h with h
          subst h
          exact ihP _ _ hp
        | ok lhs =>
          try dsimp only at h
          exact le_trans (ihB _ _ _ _ h) (ihP _ _ hp)
    · -- ParsePrimary
      intro ps r h
      rw [ParsePrimary] at h
      by_cases h1 : ps.curTok = tok_identifier
      · rw [if_pos h1] at h
        exact ihI _ _ h
      · rw [if_neg h1] at h
        by_cases h2 : ps.curTok = tok_number
        · rw [if_pos h2] at h
          injection h with h
          subst h
          exact getNextToken_measure_le ps
        · rw [if_neg h2] at h
          by_cases h3 : ps.curTok = 40
          · rw [if_pos h3] at h
            exact ihParen _ _ h
          · rw [if_neg h3] at h
            injection h with h
            subst h
            exact le_refl _
    · -- ParseParenExpr
      intro ps r h
      rw [ParseParenExpr] at h
      try dsimp only at h
      cases hp : ParseExpression f (getNextToken ps) with
      | none => rw [hp] at h; exact Option.noConfusion h
      | some pr =>
        obtain ⟨res, ps2⟩ := pr
        rw [hp] at h
        have hm : psMeasure ps2 ≤ psMeasure ps :=
          le_trans (ihE _ _ hp) (getNextToken_measure_le ps)
        cases res with
        | error e =>
          try dsimp only at h
          injection h with h
          subst h
          exact hm
        | ok v =>
          try dsimp only at h
          by_cases h4 : ps2.curTok = 41
          · rw [if_pos h4] at h
            injection h with h
            subst h
            exact le_trans (getNextToken_measure_le ps2) hm
          · rw [if_neg h4] at h
            injection h with h
            subst h
            exact hm
    · -- ParseIdentifierExpr
      intro ps r h
      rw [ParseIdentifierExpr] at h
      try dsimp only at h
      by_cases h1 : (getNextToken ps).curTok = 40
      · rw [if_pos h1] at h
        by_cases h2 : (getNextToken (getNextToken ps)).curTok = 41
        · rw [if_pos h2] at h
          injection h with h
          subst h
          exact le_trans (getNextToken_measure_le _)
            (le_trans (getNextToken_measure_le _) (getNextToken_measure_le _))
        · rw [if_neg h2] at h
          cases ha : ParseArgs f [] (getNextToken (getNextToken ps)) with
          | none => rw [ha] at h; exact Option.noConfusion h
          | some pr =>
            obtain ⟨res, ps3⟩ := pr
            rw [ha] at h
            have hm : psMeasure ps3 ≤ psMeasure ps :=
              le_trans (ihA _ _ _ ha)
                (le_trans (getNextToken_measure_le _) (getNextToken_measure_le _))
            cases res with
            | error e =>
              try dsimp only at h
              injection h with h
              subst h
              exact hm
            | ok args =>
              try dsimp only at h
              injection h with h
              subst h
              exact le_trans (getNextToken_measure_le ps3) hm
      · rw [if_neg h1] at h
        injection h with h
        subst h
        exact getNextToken_measure_le ps
    · -- ParseArgs
      intro acc ps r h
      rw [ParseArgs] at h
      cases hp : ParseExpression f ps with
      | none => rw [hp] at h; exact Option.noConfusion h
      | some pr =>
        obtain ⟨res, ps1⟩ := pr
        rw [hp] at h
        have hm : psMeasure ps1 ≤ psMeasure ps := ihE _ _ hp
        cases res with
        | error e =>
          try dsimp only at h
          injection h with h
          subst h
          exact hm
        | ok arg =>
          try dsimp only at h
          by_cases h1 : ps1.curTok = 41
          · rw [if_pos h1] at h
            injection h with h
            subst h
            exact hm
          · rw [if_neg h1] at h
            by_cases h2 : ps1.curTok = 44
            · rw [if_pos h2] at h
              exact le_trans (ihA _ _ _ h) (le_trans (getNextToken_measure_le ps1) hm)
            · rw [if_neg h2] at h
              injection h with h
              subst h
              exact hm
    · -- ParseBinOpRHS
      intro p lhs ps r h
      rw [ParseBinOpRHS] at h
      try dsimp only at h
      have hps0 : psMeasure
          (⟨ps.curTok, ps.lex, (GetTokPrecedence ps.curTok ps.prec).2⟩ : PSt) =
          psMeasure ps := rfl
      by_cases h1 : (GetTokPrecedence ps.curTok ps.prec).1 < p
      · rw [if_pos h1] at h
        injection h with h
        subst h
        exact le_of_eq hps0
      · rw [if_neg h1] at h
        cases hp : ParsePrimary f
            (getNextToken ⟨ps.curTok, ps.lex, (GetTokPrecedence ps.curTok ps.prec).2⟩) with
        | none => rw [hp] at h; exact Option.noConfusion h
        | some pr =>
          obtain ⟨res, ps2⟩ := pr
          rw [hp] at h
          have hm2 : psMeasure ps2 ≤ psMeasure ps := by
            refine le_trans (ihP _ _ hp) ?_
            refine le_trans (getNextToken_measure_le _) ?_
            exact le_of_eq hps0
          cases res with
          | error e =>
            try dsimp only at h
            injection h with h
            subst h
            exact hm2
          | ok rhs =>
            try dsimp only at h
            have hps3 : psMeasure
                (⟨ps2.curTok, ps2.lex, (GetTokPrecedence ps2.curTok ps2.prec).2⟩ : PSt) =
                psMeasure ps2 := rfl
            by_cases h2 : (GetTokPrecedence ps.curTok ps.prec).1 <
                (GetTokPrecedence ps2.curTok ps2.prec).1
            · rw [if_pos h2] at h
              cases hb : ParseBinOpRHS f ((GetTokPrecedence ps.curTok ps.prec).1 + 1) rhs
                  ⟨ps2.curTok, ps2.lex, (GetTokPrecedence ps2.curTok ps2.prec).2⟩ with
              | none => rw [hb] at h; exact Option.noConfusion h
              | some pr2 =>
                obtain ⟨res2, ps4⟩ := pr2
                rw [hb] at h
                have hm4 : psMeasure ps4 ≤ psMeasure ps :=
                  le_trans (ihB _ _ _ _ hb) (le_trans (le_of_eq hps3) hm2)
                cases res2 with
                | error e =>
                  try dsimp only at h
                  injection h with h
                  subst h
                  exact hm4
                | ok rhs2 =>
                  try dsimp only at h
                  exact le_trans (ihB _ _ _ _ h) hm4
            · rw [if_neg h2] at h
              exact le_trans (ihB _ _ _ _ h) (le_trans (le_of_eq hps3) hm2)

/-- A non-sentinel precedence is only ever reported for an ASCII token. -/
theorem getTokPrecedence_nonneg_ascii {c : Int} {m : List (Int × Int)}
    (h : 0 ≤ (GetTokPrecedence c m).1) : 0 ≤ c ∧ c ≤ 127 := by
  by_cases ha : isascii c
  · simpa [isascii] using ha
  · rw [GetTokPrecedence, if_neg ha] at h
    omega

/-- Sufficient fuel for each parser function, computed from the measure of
the input state: with that much fuel no parse runs out, i.e. each
function returns a value or an error. -/
theorem parse_total : ∀ f : Nat,
    (∀ ps, 6 * psMeasure ps + 5 ≤ f → ParseExpression f ps ≠ none) ∧
    (∀ ps, 6 * psMeasure ps + 3 ≤ f → ParsePrimary f ps ≠ none) ∧
    (∀ ps, ps.curTok ≠ tok_eof → 6 * psMeasure ps ≤ f → ParseParenExpr f ps ≠ none) ∧
    (∀ ps, ps.curTok ≠ tok_eof → 6 * psMeasure ps + 2 ≤ f →
      ParseIdentifierExpr f ps ≠ none) ∧
    (∀ acc ps, 6 * psMeasure ps + 6 ≤ f → ParseArgs f acc ps ≠ none) ∧
    (∀ p lhs ps, 0 ≤ p → 6 * psMeasure ps + 4 ≤ f → ParseBinOpRHS f p lhs ps ≠ none) := by
  intro f
  induction f with
  | zero =>
    refine ⟨?_, ?_, ?_, ?_, ?_, ?_⟩
    · intro ps h; exact absurd h (by omega)
    · intro ps h; exact absurd h (by omega)
    · intro ps hne h
      have hM1 : 1 ≤ psMeasure ps := by rw [psMeasure, if_neg hne]; omega
      exact absurd h (by omega)
    · intro ps hne h; exact absurd h (by omega)
    · intro acc ps h; exact absurd h (by omega)
    · intro p lhs ps h0 h; exact absurd h (by omega)
  | succ f ih =>
    obtain ⟨sE, sP, sParen, sI, sA, sB⟩ := ih
    have mE := (parse_measure f).1
    have mP := (parse_measure f).2.1
    have mA := (parse_measure f).2.2.2.2.1
    have mB := (parse_measure f).2.2.2.2.2
    refine ⟨?_, ?_, ?_, ?_, ?_, ?_⟩
    · -- ParseExpression
      intro ps hf
      rw [ParseExpression]
      cases hp : ParsePrimary f ps with
      | none => exact absurd hp (sP ps (by omega))
      | some pr =>
        obtain ⟨res, ps1⟩ := pr
        cases res with
        | error e => exact fun hc => Option.noConfusion hc
        | ok lhs =>
          try dsimp only
          have hm : psMeasure ps1 ≤ psMeasure ps := mP _ _ hp
          exact sB 0 lhs ps1 (le_refl 0) (by omega)
    · -- ParsePrimary
      intro ps hf
      rw [ParsePrimary]
      by_cases h1 : ps.curTok = tok_identifier
      · rw [if_pos h1]
        refine sI ps ?_ (by omega)
        rw [h1]; decide
      · rw [if_neg h1]
        by_cases h2 : ps.curTok = tok_number
        · rw [if_pos h2]; exact fun hc => Option.noConfusion hc
        · rw [if_neg h2]
          by_cases h3 : ps.curTok = 40
          · rw [if_pos h3]
            refine sParen ps ?_ (by omega)
            rw [h3]; decide
          · rw [if_neg h3]; exact fun hc => Option.noConfusion hc
    · -- ParseParenExpr
      intro ps hne hf
      have hM1 : 1 ≤ psMeasure ps := by rw [psMeasure, if_neg hne]; omega
      have hlt : psMeasure (getNextToken ps) < psMeasure ps :=
        getNextToken_measure_lt ps hne
      rw [ParseParenExpr]
      try dsimp only
      cases hp : ParseExpression f (getNextToken ps) with
      | none => exact absurd hp (sE _ (by omega))
      | some pr =>
        obtain ⟨res, ps2⟩ := pr
        cases res with
        | error e => exact fun hc => Option.noConfusion hc
        | ok v =>
          try dsimp only
          by_cases h4 : ps2.curTok = 41
          · rw [if_pos h4]; exact fun hc => Option.noConfusion hc
          · rw [if_neg h4]; exact fun hc => Option.noConfusion hc
    · -- ParseIdentifierExpr
      intro ps hne hf
      have hM1 : 1 ≤ psMeasure ps := by rw [psMeasure, if_neg hne]; omega
      have hlt : psMeasure (getNextToken ps) < psMeasure ps :=
        getNextToken_measure_lt ps hne
      have hle2 : psMeasure (getNextToken (getNextToken ps)) ≤
          psMeasure (getNextToken ps) := getNextToken_measure_le _
      rw [ParseIdentifierExpr]
      try dsimp only
      by_cases h1 : (getNextToken ps).curTok = 40
      · rw [if_pos h1]
        by_cases h2 : (getNextToken (getNextToken ps)).curTok = 41
        · rw [if_pos h2]; exact fun hc => Option.noConfusion hc
        · rw [if_neg h2]
          cases ha : ParseArgs f [] (getNextToken (getNextToken ps)) with
          | none => exact absurd ha (sA [] _ (by omega))
          | some pr =>
            obtain ⟨res, ps3⟩ := pr
            cases res with
            | error e => exact fun hc => Option.noConfusion hc
            | ok args => exact fun hc => Option.noConfusion hc
      · rw [if_neg h1]; exact fun hc => Option.noConfusion hc
    · -- ParseArgs
      intro acc ps hf
      rw [ParseArgs]
      cases hp : ParseExpression f ps with
      | none => exact absurd hp (sE ps (by omega))
      | some pr =>
        obtain ⟨res, ps1⟩ := pr
        cases res with
        | error e => exact fun hc => Option.noConfusion hc
        | ok arg =>
          try dsimp only
          have hm1 : psMeasure ps1 ≤ psMeasure ps := mE _ _ hp
          by_cases h1 : ps1.curTok = 41
          · rw [if_pos h1]; exact fun hc => Option.noConfusion hc
          · rw [if_neg h1]
            by_cases h2 : ps1.curTok = 44
            · rw [if_pos h2]
              have hlt : psMeasure (getNextToken ps1) < psMeasure ps1 :=
                getNextToken_measure_lt ps1 (by rw [h2]; decide)
              exact sA (acc ++ [arg]) _ (by omega)
            · rw [if_neg h2]; exact fun hc => Option.noConfusion hc
    · -- ParseBinOpRHS
      intro p lhs ps hp0 hf
      rw [ParseBinOpRHS]
      try dsimp only
      by_cases h1 : (GetTokPrecedence ps.curTok ps.prec).1 < p
      · rw [if_pos h1]; exact fun hc => Option.noConfusion hc
      · rw [if_neg h1]
        have hge : 0 ≤ (GetTokPrecedence ps.curTok ps.prec).1 := by omega
        have hascii := getTokPrecedence_nonneg_ascii hge
        have hm0 : psMeasure
            (⟨ps.curTok, ps.lex, (GetTokPrecedence ps.curTok ps.prec).2⟩ : PSt) =
            psMeasure ps := rfl
        have hne : (⟨ps.curTok, ps.lex,
            (GetTokPrecedence ps.curTok ps.prec).2⟩ : PSt).curTok ≠ tok_eof := by
          show ps.curTok ≠ tok_eof
          rw [tok_eof]
          omega
        have hlt : psMeasure (getNextToken
            ⟨ps.curTok, ps.lex, (GetTokPrecedence ps.curTok ps.prec).2⟩) <
            psMeasure ps := by
          have := getNextToken_measure_lt _ hne
          omega
        cases hp : ParsePrimary f (getNextToken
            ⟨ps.curTok, ps.lex, (GetTokPrecedence ps.curTok ps.prec).2⟩) with
        | none => exact absurd hp (sP _ (by omega))
        | some pr =>
          obtain ⟨res, ps2⟩ := pr
          cases res with
          | error e => exact fun hc => Option.noConfusion hc
          | ok rhs =>
            try dsimp only
            have hm2 : psMeasure ps2 < psMeasure ps := by
              have hx : psMeasure ps2 ≤ psMeasure (getNextToken
                  ⟨ps.curTok, ps.lex, (GetTokPrecedence ps.curTok ps.prec).2⟩) :=
                mP _ _ hp
              omega
            have hm3 : psMeasure
                (⟨ps2.curTok, ps2.lex, (GetTokPrecedence ps2.curTok ps2.prec).2⟩ : PSt) =
                psMeasure ps2 := rfl
            by_cases h2 : (GetTokPrecedence ps.curTok ps.prec).1 <
                (GetTokPrecedence ps2.curTok ps2.prec).1
            · rw [if_pos h2]
              cases hb : ParseBinOpRHS f ((GetTokPrecedence ps.curTok ps.prec).1 + 1) rhs
                  ⟨ps2.curTok, ps2.lex, (GetTokPrecedence ps2.curTok ps2.prec).2⟩ with
              | none => exact absurd hb (sB _ _ _ (by omega) (by omega))
              | some pr2 =>
                obtain ⟨res2, ps4⟩ := pr2
                cases res2 with
                | error e => exact fun hc => Option.noConfusion hc
                | ok rhs2 =>
                  try dsimp only
                  have hm4 : psMeasure ps4 ≤ psMeasure ps2 := by
                    have hx : psMeasure ps4 ≤ psMeasure
                        (⟨ps2.curTok, ps2.lex,
                          (GetTokPrecedence ps2.curTok ps2.prec).2⟩ : PSt) :=
                      mB _ _ _ _ hb
                    omega
                  exact sB p _ ps4 hp0 (by omega)
            · rw [if_neg h2]
              exact sB p _ _ hp0 (by omega)

/-- C9.  Every parse entry point terminates on every finite input: fuel
linear in the state measure (itself bounded by the input length) is
enough for `ParseExpression`, `ParseDefinition`, `ParseTopLevelExpr` and
`ParseExtern` to return a value or a failure rather than running out. -/
theorem parse_entry_total (ps : PSt) (f : Nat) :
    (6 * psMeasure ps + 5 ≤ f → ParseExpression f ps ≠ none) ∧
    (6 * psMeasure ps + 6 ≤ f → ParseDefinition f ps ≠ none) ∧
    (6 * psMeasure ps + 6 ≤ f → ParseTopLevelExpr f ps ≠ none) ∧
    (lexWeight ps.lex + 3 ≤ f → ParseExtern f ps ≠ none) := by
  have hwm : lexWeight ps.lex ≤ psMeasure ps := by rw [psMeasure]; omega
  refine ⟨fun hf => (parse_total f).1 ps hf, ?_, ?_, ?_⟩
  · -- ParseDefinition
    intro hf
    cases f with
    | zero => exact absurd hf (by omega)
    | succ f =>
      rw [ParseDefinition]
      try dsimp only
      have hw1 : lexWeight (getNextToken ps).lex ≤ lexWeight ps.lex :=
        getNextToken_weight_le ps
      cases hpr : ParsePrototype f (getNextToken ps) with
      | none =>
        exact absurd hpr (parsePrototype_total f (getNextToken ps) (by omega))
      | some pr =>
        obtain ⟨res, ps2⟩ := pr
        cases res with
        | error e => exact fun hc => Option.noConfusion hc
        | ok proto =>
          try dsimp only
          have hm2 : psMeasure ps2 ≤ psMeasure ps := by
            have hx : psMeasure ps2 ≤ psMeasure (getNextToken ps) :=
              parsePrototype_measure f (getNextToken ps) (Except.ok proto, ps2) hpr
            have hy := getNextToken_measure_le ps
            omega
          cases he : ParseExpression f ps2 with
          | none => exact absurd he ((parse_total f).1 ps2 (by omega))
          | some pr2 =>
            obtain ⟨res2, ps3⟩ := pr2
            cases res2 with
            | error e => exact fun hc => Option.noConfusion hc
            | ok body => exact fun hc => Option.noConfusion hc
  · -- ParseTopLevelExpr
    intro hf
    cases f with
    | zero => exact absurd hf (by omega)
    | succ f =>
      rw [ParseTopLevelExpr]
      cases he : ParseExpression f ps with
      | none => exact absurd he ((parse_total f).1 ps (by omega))
      | some pr =>
        obtain ⟨res, ps1⟩ := pr
        cases res with
        | error e => exact fun hc => Option.noConfusion hc
        | ok e => exact fun hc => Option.noConfusion hc
  · -- ParseExtern
    intro hf
    cases f with
    | zero => exact absurd hf (by omega)
    | succ f =>
      rw [ParseExtern]
      have hw1 : lexWeight (getNextToken ps).lex ≤ lexWeight ps.lex :=
        getNextToken_weight_le ps
      exact parsePrototype_total f (getNextToken ps) (by omega)

/-- Witness for C9 at concrete inputs and fuel. -/
theorem parse_entry_total_w :
    ParseExpression 100 (initPSt "1+2") ≠ none ∧
    ParseDefinition 100 (initPSt "def f(x) x") ≠ none ∧
    ParseTopLevelExpr 100 (initPSt "1+2") ≠ none ∧
    ParseExtern 100 (initPSt "extern g(y)") ≠ none :=
  ⟨(parse_entry_total (initPSt "1+2") 100).1 (by decide),
   (parse_entry_total (initPSt "def f(x) x") 100).2.1 (by decide),
   (parse_entry_total (initPSt "1+2") 100).2.2.1 (by decide),
   (parse_entry_total (initPSt "extern g(y)") 100).2.2.2 (by decide)⟩

/-- The skipping loop is the identity on a significant character. -/
theorem skipJunk_stop {lc : Int} (l : List Int) (h1 : isspace lc = false)
    (h2 : ¬(lc = 35)) : skipJunk false lc l = (lc, l) := by
  rw [skipJunk.eq_def]
  simp [h1, h2]

/-- The accumulation loop, described by `takeWhile`/`dropWhile`: it consumes
exactly the maximal run satisfying `p`. -/
theorem readRun_eq (p : Int → Bool) (l : List Int) :
    readRun p l =
      (l.takeWhile p, (l.dropWhile p).headD (-1), (l.dropWhile p).tail) := by
  induction l with
  | nil => simp [readRun]
  | cons c cs ih =>
    rw [readRun]
    by_cases hp : p c
    · simp [hp, List.takeWhile_cons, List.dropWhile_cons, ih]
    · simp [hp, List.takeWhile_cons, List.dropWhile_cons]

/-- C8.  Whenever the pending character is a digit or a dot, `gettok`
consumes exactly the maximal contiguous run of digits and dots and
returns the numeric token whose value is the decimal conversion
(`strtod`) of precisely that consumed run, with no validation of the
run (a second dot or a lone dot still yields a numeric token). -/
theorem gettok_number_run (st : LexState)
    (h : isdigit st.lastChar = true ∨ st.lastChar = 46) :
    gettok st =
      (tok_number,
       ⟨(st.input.dropWhile isNumChar).headD (-1),
        (st.input.dropWhile isNumChar).tail,
        st.identifierStr,
        strtod (st.lastChar :: st.input.takeWhile isNumChar)⟩) := by
  have h1 : isspace st.lastChar = false := by
    rcases h with hd | hp
    · simp only [isdigit, decide_eq_true_eq] at hd
      simp only [isspace, decide_eq_false_iff_not]
      omega
    · rw [hp]; decide
  have h2 : ¬(st.lastChar = 35) := by
    rcases h with hd | hp
    · simp only [isdigit, decide_eq_true_eq] at hd
      omega
    · rw [hp]; decide
  have ha : isalpha st.lastChar = false := by
    rcases h with hd | hp
    · simp only [isdigit, decide_eq_true_eq] at hd
      simp only [isalpha, decide_eq_false_iff_not]
      omega
    · rw [hp]; decide
  have hd : (isdigit st.lastChar || decide (st.lastChar = 46)) = true := by
    rcases h with hd | hp
    · simp [hd]
    · simp [hp]
  have hr := skipJunk_stop st.input h1 h2
  rw [gettok_num st hr ha hd, readRun_eq]

/-- Witness for C8: from `1` with pending input `.2.3+`, the scanner
consumes the whole invalid run `1.2.3` and stops at the `+`. -/
theorem gettok_number_run_w :
    gettok ⟨49, [46, 50, 46, 51, 43], "", 0⟩ =
      (tok_number,
       ⟨(([46, 50, 46, 51, 43] : List Int).dropWhile isNumChar).headD (-1),
        (([46, 50, 46, 51, 43] : List Int).dropWhile isNumChar).tail,
        "",
        strtod (49 :: ([46, 50, 46, 51, 43] : List Int).takeWhile isNumChar)⟩) :=
  gettok_number_run ⟨49, [46, 50, 46, 51, 43], "", 0⟩ (Or.inl (by decide))

/-- Comment mode runs over a clean comment body to the terminating newline
and resumes the normal loop there. -/
theorem skipJunk_comment_clean : ∀ (C : List Int), cleanChars C = true →
    ∀ (x : Int) (B : List Int),
    skipJunk true x (C ++ 10 :: B) = skipJunk false 10 B := by
  intro C
  induction C with
  | nil =>
    intro _ x B
    rw [List.nil_append, skipJunk]
    simp
  | cons c C2 ih =>
    intro hclean x B
    have hc : noTerm c = true ∧ cleanChars C2 = true := by
      simpa [cleanChars] using hclean
    have hnt : ¬(c = -1 ∨ c = 10 ∨ c = 13) := by
      simpa [noTerm] using hc.1
    rw [List.cons_append, skipJunk, if_neg hnt]
    exact ih hc.2 c B

/-- From the `#` that opens a comment, the skipping loop lands exactly
where it would land had the comment body not been there. -/
theorem skipJunk_at_comment (C B : List Int) (hC : cleanChars C = true) :
    skipJunk false 35 (C ++ 10 :: B) = skipJunk false 10 B := by
  rw [skipJunk.eq_def]
  have h35 : isspace (35 : Int) = false := by decide
  simp only [h35, Bool.false_eq_true, if_false, if_pos rfl]
  cases C with
  | nil =>
    rw [List.nil_append]
    simp
  | cons c C2 =>
    have hc : noTerm c = true ∧ cleanChars C2 = true := by
      simpa [cleanChars] using hC
    have hnt : ¬(c = -1 ∨ c = 10 ∨ c = 13) := by
      simpa [noTerm] using hc.1
    rw [List.cons_append]
    simp only [if_neg hnt]
    exact skipJunk_comment_clean C2 hc.2 c B

/-- The scanner positioned at a comment behaves exactly as if positioned at
the newline that ends it. -/
theorem gettok_at_comment (C B : List Int) (ids : String) (nv : Rat)
    (hC : cleanChars C = true) :
    gettok ⟨35, C ++ 10 :: B, ids, nv⟩ = gettok ⟨10, B, ids, nv⟩ := by
  rw [gettok, gettok]
  dsimp only
  rw [skipJunk_at_comment C B hC]

/-- The accumulation loop over a fully matching prefix stops exactly at the
first failing character. -/
theorem readRun_all_append (p : Int → Bool) :
    ∀ (A : List Int), A.all p = true → ∀ (x : Int), p x = false → ∀ (xs : List Int),
    readRun p (A ++ x :: xs) = (A, x, xs) := by
  intro A
  induction A with
  | nil =>
    intro _ x hx xs
    rw [List.nil_append, readRun]
    simp [hx]
  | cons a A2 ih =>
    intro hall x hx xs
    have ha : p a = true ∧ A2.all p = true := by simpa using hall
    rw [List.cons_append, readRun]
    simp only [ha.1, if_true]
    rw [ih ha.2 x hx xs]

/-- A list that does not fully satisfy `p` splits at its first failing
element. -/
theorem all_false_split (p : Int → Bool) : ∀ (l : List Int), l.all p = false →
    ∃ l1 c l2, l = l1 ++ c :: l2 ∧ l1.all p = true ∧ p c = false := by
  intro l
  induction l with
  | nil => intro h; simp at h
  | cons a l2 ih =>
    intro h
    by_cases hp : p a
    · have hl2 : l2.all p = false := by simpa [hp] using h
      obtain ⟨l1, c, l3, he, h1, h2⟩ := ih hl2
      exact ⟨a :: l1, c, l3, by rw [he, List.cons_append], by simp [hp, h1], h2⟩
    · exact ⟨[], a, l2, rfl, rfl, by simpa using hp⟩

/-- Unfolding the whitespace loop on a space. -/
theorem skipJunk_false_space {lc : Int} (h : isspace lc = true) (c : Int) (cs : List Int) :
    skipJunk false lc (c :: cs) = skipJunk false c cs := by
  rw [skipJunk.eq_def]
  simp [h]

/-- Unfolding the comment entry on a `#`. -/
theorem skipJunk_false_hash (c : Int) (cs : List Int) :
    skipJunk false 35 (c :: cs) =
      if c = -1 ∨ c = 10 ∨ c = 13 then skipJunk false c cs else skipJunk true c cs := by
  rw [skipJunk.eq_def]
  have hs : isspace (35 : Int) = false := by decide
  simp [hs]

/-- Unfolding one step inside a comment. -/
theorem skipJunk_true_cons (lc c : Int) (cs : List Int) :
    skipJunk true lc (c :: cs) =
      if c = -1 ∨ c = 10 ∨ c = 13 then skipJunk false c cs else skipJunk true c cs := by
  rw [skipJunk]

/-- The newline that terminates a comment is consumed as whitespace. -/
theorem skipJunk_false_nl (B : List Int) :
    skipJunk false 10 B =
      match B with
      | [] => (-1, [])
      | c :: cs => skipJunk false c cs := by
  rw [skipJunk.eq_def]
  have hs : isspace (10 : Int) = true := by decide
  simp [hs]

/-- One scan step of the skipping loop on a stream containing a clean,
newline-terminated comment, compared with the same stream with the
comment removed: either both scans converge to the state just after the
newline, or both stop at the same significant character with the same
prefix of the comment region still ahead. -/
theorem skipJunk_sim (C B : List Int) (hC : cleanChars C = true) :
    ∀ (A : List Int) (mode : Bool) (lc : Int), noEOFChar A = true →
    (skipJunk mode lc (A ++ 35 :: (C ++ 10 :: B)) = skipJunk false 10 B ∧
     skipJunk mode lc (A ++ 10 :: B) = skipJunk false 10 B) ∨
    (∃ c A2, isspace c = false ∧ ¬(c = 35) ∧ noEOFChar A2 = true ∧
      skipJunk mode lc (A ++ 35 :: (C ++ 10 :: B)) = (c, A2 ++ 35 :: (C ++ 10 :: B)) ∧
      skipJunk mode lc (A ++ 10 :: B) = (c, A2 ++ 10 :: B)) := by
  intro A
  induction A with
  | nil =>
    intro mode lc _
    rw [List.nil_append, List.nil_append]
    cases mode with
    | true =>
      left
      have h35 : ¬((35 : Int) = -1 ∨ (35 : Int) = 10 ∨ (35 : Int) = 13) := by decide
      have h10 : ((10 : Int) = -1 ∨ (10 : Int) = 10 ∨ (10 : Int) = 13) := by decide
      constructor
      · rw [skipJunk_true_cons, if_neg h35]
        exact skipJunk_comment_clean C hC 35 B
      · rw [skipJunk_true_cons, if_pos h10]
    | false =>
      by_cases hsp : isspace lc = true
      · left
        constructor
        · rw [skipJunk_false_space hsp]
          exact skipJunk_at_comment C B hC
        · rw [skipJunk_false_space hsp]
      · by_cases h35 : lc = 35
        · left
          subst h35
          have h35n : ¬((35 : Int) = -1 ∨ (35 : Int) = 10 ∨ (35 : Int) = 13) := by decide
          constructor
          · rw [skipJunk_false_hash, if_neg h35n]
            exact skipJunk_comment_clean C hC 35 B
          · rw [skipJunk_false_hash, if_pos (by decide)]
        · right
          refine ⟨lc, [], by simpa using hsp, h35, rfl, ?_, ?_⟩
          · rw [skipJunk_stop _ (by simpa using hsp) h35, List.nil_append]
          · rw [skipJunk_stop _ (by simpa using hsp) h35, List.nil_append]
  | cons a A2 ih =>
    intro mode lc hA
    have ha : a ≠ -1 ∧ noEOFChar A2 = true := by
      simpa [noEOFChar] using hA
    rw [List.cons_append, List.cons_append]
    cases mode with
    | true =>
      rw [skipJunk_true_cons, skipJunk_true_cons]
      by_cases ht : a = -1 ∨ a = 10 ∨ a = 13
      · rw [if_pos ht, if_pos ht]
        exact ih false a ha.2
      · rw [if_neg ht, if_neg ht]
        exact ih true a ha.2
    | false =>
      by_cases hsp : isspace lc = true
      · rw [skipJunk_false_space hsp, skipJunk_false_space hsp]
        exact ih false a ha.2
      · by_cases h35 : lc = 35
        · subst h35
          rw [skipJunk_false_hash, skipJunk_false_hash]
          by_cases ht : a = -1 ∨ a = 10 ∨ a = 13
          · rw [if_pos ht, if_pos ht]
            exact ih false a ha.2
          · rw [if_neg ht, if_neg ht]
            exact ih true a ha.2
        · right
          refine ⟨lc, a :: A2, by simpa using hsp, h35, hA, ?_, ?_⟩
          · rw [skipJunk_stop _ (by simpa using hsp) h35, List.cons_append]
          · rw [skipJunk_stop _ (by simpa using hsp) h35, List.cons_append]

/-- One token step preserves the comment simulation: both scans emit the
same token and stay related. -/
theorem gettok_sim (C B : List Int) (hC : cleanChars C = true)
    (A : List Int) (lc : Int) (ids : String) (nv : Rat) (hA : noEOFChar A = true) :
    (gettok ⟨lc, A ++ 35 :: (C ++ 10 :: B), ids, nv⟩).1 =
      (gettok ⟨lc, A ++ 10 :: B, ids, nv⟩).1 ∧
    lexSim C B (gettok ⟨lc, A ++ 35 :: (C ++ 10 :: B), ids, nv⟩).2
      (gettok ⟨lc, A ++ 10 :: B, ids, nv⟩).2 := by
  rcases skipJunk_sim C B hC A false lc hA with ⟨e1, e2⟩ | ⟨c, A2, hsp, h35, hA2, e1, e2⟩
  · have hg : gettok ⟨lc, A ++ 35 :: (C ++ 10 :: B), ids, nv⟩ =
        gettok ⟨lc, A ++ 10 :: B, ids, nv⟩ := by
      rw [gettok, gettok]
      dsimp only
      rw [e1, e2]
    rw [hg]
    exact ⟨rfl, Or.inl rfl⟩
  · by_cases hal : isalpha c = true
    · by_cases hall : A2.all isalnum = true
      · have r1 : readRun isalnum (A2 ++ 35 :: (C ++ 10 :: B)) =
            (A2, 35, C ++ 10 :: B) :=
          readRun_all_append isalnum A2 hall 35 (by decide) _
        have r2 : readRun isalnum (A2 ++ 10 :: B) = (A2, 10, B) :=
          readRun_all_append isalnum A2 hall 10 (by decide) _
        rw [gettok_alpha _ e1 hal, gettok_alpha _ e2 hal, r1, r2]
        exact ⟨rfl, Or.inr (Or.inr ⟨codesToString (c :: A2), nv, rfl, rfl⟩)⟩
      · have hall2 : A2.all isalnum = false := by simpa using hall
        obtain ⟨A3, x, A4, hdec, h3all, hx⟩ := all_false_split isalnum A2 hall2
        subst hdec
        have hsplit : noEOFChar A3 = true ∧ x ≠ -1 ∧ noEOFChar A4 = true := by
          simpa [noEOFChar] using hA2
        have r1 : readRun isalnum ((A3 ++ x :: A4) ++ 35 :: (C ++ 10 :: B)) =
            (A3, x, A4 ++ 35 :: (C ++ 10 :: B)) := by
          rw [List.append_assoc, List.cons_append]
          exact readRun_all_append isalnum A3 h3all x hx _
        have r2 : readRun isalnum ((A3 ++ x :: A4) ++ 10 :: B) =
            (A3, x, A4 ++ 10 :: B) := by
          rw [List.append_assoc, List.cons_append]
          exact readRun_all_append isalnum A3 h3all x hx _
        rw [gettok_alpha _ e1 hal, gettok_alpha _ e2 hal, r1, r2]
        exact ⟨rfl, Or.inr (Or.inl
          ⟨x, A4, codesToString (c :: A3), nv, hsplit.2.2, rfl, rfl⟩)⟩
    · have hal2 : isalpha c = false := by simpa using hal
      by_cases hdg : (isdigit c || decide (c = 46)) = true
      · by_cases hall : A2.all isNumChar = true
        · have r1 : readRun isNumChar (A2 ++ 35 :: (C ++ 10 :: B)) =
              (A2, 35, C ++ 10 :: B) :=
            readRun_all_append isNumChar A2 hall 35 (by decide) _
          have r2 : readRun isNumChar (A2 ++ 10 :: B) = (A2, 10, B) :=
            readRun_all_append isNumChar A2 hall 10 (by decide) _
          rw [gettok_num _ e1 hal2 hdg, gettok_num _ e2 hal2 hdg, r1, r2]
          exact ⟨rfl, Or.inr (Or.inr ⟨ids, strtod (c :: A2), rfl, rfl⟩)⟩
        · have hall2 : A2.all isNumChar = false := by simpa using hall
          obtain ⟨A3, x, A4, hdec, h3all, hx⟩ := all_false_split isNumChar A2 hall2
          subst hdec
          have hsplit : noEOFChar A3 = true ∧ x ≠ -1 ∧ noEOFChar A4 = true := by
            simpa [noEOFChar] using hA2
          have r1 : readRun isNumChar ((A3 ++ x :: A4) ++ 35 :: (C ++ 10 :: B)) =
              (A3, x, A4 ++ 35 :: (C ++ 10 :: B)) := by
            rw [List.append_assoc, List.cons_append]
            exact readRun_all_append isNumChar A3 h3all x hx _
          have r2 : readRun isNumChar ((A3 ++ x :: A4) ++ 10 :: B) =
              (A3, x, A4 ++ 10 :: B) := by
            rw [List.append_assoc, List.cons_append]
            exact readRun_all_append isNumChar A3 h3all x hx _
          rw [gettok_num _ e1 hal2 hdg, gettok_num _ e2 hal2 hdg, r1, r2]
          exact ⟨rfl, Or.inr (Or.inl
            ⟨x, A4, ids, strtod (c :: A3), hsplit.2.2, rfl, rfl⟩)⟩
      · have hdg2 : (isdigit c || decide (c = 46)) = false := by simpa using hdg
        by_cases he : c = -1
        · rw [gettok_eof _ e1 hal2 hdg2 he, gettok_eof _ e2 hal2 hdg2 he]
          exact ⟨rfl, Or.inr (Or.inl ⟨-1, A2, ids, nv, hA2, rfl, rfl⟩)⟩
        · cases A2 with
          | nil =>
            rw [List.nil_append] at e1 e2
            rw [gettok_ch_cons _ e1 hal2 hdg2 he, gettok_ch_cons _ e2 hal2 hdg2 he]
            exact ⟨rfl, Or.inr (Or.inr ⟨ids, nv, rfl, rfl⟩)⟩
          | cons a A4 =>
            have hsplit : a ≠ -1 ∧ noEOFChar A4 = true := by
              simpa [noEOFChar] using hA2
            rw [List.cons_append] at e1 e2
            rw [gettok_ch_cons _ e1 hal2 hdg2 he, gettok_ch_cons _ e2 hal2 hdg2 he]
            exact ⟨rfl, Or.inr (Or.inl ⟨a, A4, ids, nv, hsplit.2, rfl, rfl⟩)⟩

/-- Related scanner states agree on the token payload globals. -/
theorem lexSim_globals {C B : List Int} {s1 s2 : LexState} (h : lexSim C B s1 s2) :
    s1.identifierStr = s2.identifierStr ∧ s1.numVal = s2.numVal := by
  rcases h with h | ⟨lc, A, ids, nv, _, h1, h2⟩ | ⟨ids, nv, h1, h2⟩
  · rw [h]
    exact ⟨rfl, rfl⟩
  · rw [h1, h2]
    exact ⟨rfl, rfl⟩
  · rw [h1, h2]
    exact ⟨rfl, rfl⟩

/-- One token step from any pair of related scanner states. -/
theorem gettok_sim_full {C B : List Int} (hC : cleanChars C = true)
    {s1 s2 : LexState} (h : lexSim C B s1 s2) :
    (gettok s1).1 = (gettok s2).1 ∧ lexSim C B (gettok s1).2 (gettok s2).2 := by
  rcases h with h | ⟨lc, A, ids, nv, hA, h1, h2⟩ | ⟨ids, nv, h1, h2⟩
  · rw [h]
    exact ⟨rfl, Or.inl rfl⟩
  · rw [h1, h2]
    exact gettok_sim C B hC A lc ids nv hA
  · rw [h1, h2, gettok_at_comment C B ids nv hC]
    exact ⟨rfl, Or.inl rfl⟩

/-- The view of a token depends only on its code and the payload globals. -/
theorem viewTok_congr {t1 t2 : Int} {s1 s2 : LexState} (ht : t1 = t2)
    (hi : s1.identifierStr = s2.identifierStr) (hn : s1.numVal = s2.numVal) :
    viewTok t1 s1 = viewTok t2 s2 := by
  rw [viewTok, viewTok, ht, hi, hn]

/-- Whole token sequences coincide from related scanner states. -/
theorem tokenStream_sim {C B : List Int} (hC : cleanChars C = true) :
    ∀ (f : Nat) (s1 s2 : LexState), lexSim C B s1 s2 →
    tokenStream f s1 = tokenStream f s2 := by
  intro f
  induction f with
  | zero => intro s1 s2 _; rfl
  | succ f ih =>
    intro s1 s2 h
    have hstep := gettok_sim_full hC h
    have hg := lexSim_globals hstep.2
    rw [tokenStream, tokenStream]
    by_cases he : (gettok s1).1 = tok_eof
    · rw [if_pos he, if_pos (hstep.1 ▸ he)]
      rw [viewTok_congr hstep.1 hg.1 hg.2]
    · rw [if_neg he, if_neg (hstep.1 ▸ he)]
      rw [viewTok_congr hstep.1 hg.1 hg.2, ih _ _ hstep.2]

/-- C7.  Comment text never affects tokenization: wherever a stream contains
a `#` comment running to the end of its line, the token sequence equals
that of the same stream with the comment characters removed; in
particular `1 #comment\n2` tokenizes like `1\n2`. -/
theorem comment_transparent :
    (∀ (fuel : Nat) (lc : Int) (ids : String) (nv : Rat) (A C B : List Int),
      cleanChars C = true → noEOFChar A = true →
      tokenStream fuel ⟨lc, A ++ 35 :: (C ++ 10 :: B), ids, nv⟩ =
        tokenStream fuel ⟨lc, A ++ 10 :: B, ids, nv⟩) ∧
    tokenStream 10 (lexInit "1 #comment\n2") = tokenStream 10 (lexInit "1\n2") := by
  constructor
  · intro fuel lc ids nv A C B hC hA
    exact tokenStream_sim hC fuel _ _ (Or.inr (Or.inl ⟨lc, A, ids, nv, hA, rfl, rfl⟩))
  · rfl

/-- Witness for C7 at the concrete comment of the spec example. -/
theorem comment_transparent_w :
    tokenStream 10 ⟨32, strCodes "1 " ++ 35 :: (strCodes "comment" ++ 10 :: strCodes "2"),
        "", 0⟩ =
      tokenStream 10 ⟨32, strCodes "1 " ++ 10 :: strCodes "2", "", 0⟩ :=
  comment_transparent.1 10 32 "" 0 (strCodes "1 ") (strCodes "comment") (strCodes "2")
    (by decide) (by decide)

/-- The scanner value of a single digit character. -/
theorem strtod_digit (d : Nat) (hd : d < 10) : strtod [48 + (d : Int)] = (d : Rat) := by
  have h1 : isdigit (48 + (d : Int)) = true := by
    simp only [isdigit, decide_eq_true_eq]
    omega
  have h2 : ((48 + (d : Int)) - 48).toNat = d := by omega
  rw [strtod]
  simp [h1, digitsVal, h2]

/-- Scanning a digit at the very end of the input. -/
theorem gettok_digit_nil (d : Nat) (hd : d < 10) (ids : String) (nv : Rat) :
    gettok ⟨48 + (d : Int), [], ids, nv⟩ = (tok_number, ⟨-1, [], ids, (d : Rat)⟩) := by
  have h1 : isdigit (48 + (d : Int)) = true := by
    simp only [isdigit, decide_eq_true_eq]
    omega
  rw [gettok_number_run _ (Or.inl h1)]
  simp [strtod_digit d hd]

/-- Scanning a digit followed directly by a `-`. -/
theorem gettok_digit_minus (d : Nat) (hd : d < 10) (xs : List Int) (ids : String)
    (nv : Rat) :
    gettok ⟨48 + (d : Int), 45 :: xs, ids, nv⟩ =
      (tok_number, ⟨45, xs, ids, (d : Rat)⟩) := by
  have h1 : isdigit (48 + (d : Int)) = true := by
    simp only [isdigit, decide_eq_true_eq]
    omega
  have h45 : isNumChar 45 = false := by decide
  rw [gettok_number_run _ (Or.inl h1)]
  simp [List.dropWhile_cons, List.takeWhile_cons, h45, strtod_digit d hd]

/-- Scanning the pending `-` punctuation character. -/
theorem gettok_minus_cons (x : Int) (xs : List Int) (ids : String) (nv : Rat) :
    gettok ⟨45, x :: xs, ids, nv⟩ = (45, ⟨x, xs, ids, nv⟩) := by
  have hr : skipJunk false (45 : Int) (x :: xs) = (45, x :: xs) :=
    skipJunk_stop _ (by decide) (by decide)
  exact gettok_ch_cons _ hr (by decide) (by decide) (by decide)

/-- Scanning at exhausted input keeps returning end-of-input. -/
theorem gettok_eof_end (ids : String) (nv : Rat) :
    gettok ⟨-1, [], ids, nv⟩ = (tok_eof, ⟨-1, [], ids, nv⟩) := by
  have hr : skipJunk false (-1 : Int) ([] : List Int) = (-1, []) :=
    skipJunk_stop _ (by decide) (by decide)
  exact gettok_eof _ hr (by decide) (by decide) rfl

/-- One iteration of the precedence-climbing loop on an equal-precedence
`-` chain: the next operand is merged as the right child of a new node
above the accumulated left tree, and the loop continues at the same
minimal precedence. -/
theorem binop_chain_step (e : Nat) (he : e < 10) (rest : List Nat) (lhs : ExprAST)
    (ids : String) (nv : Rat) (f : Nat) :
    ParseBinOpRHS (f + 2) 0 lhs
        ⟨45, ⟨48 + (e : Int), chainCodes rest, ids, nv⟩, BinopPrecedence⟩ =
      ParseBinOpRHS (f + 1) 0
        (ExprAST.BinaryExprAST 45 lhs (ExprAST.NumberExprAST (e : Rat)))
        (match rest with
         | [] => ⟨tok_eof, ⟨-1, [], ids, (e : Rat)⟩, BinopPrecedence⟩
         | d :: rest2 =>
           ⟨45, ⟨48 + (d : Int), chainCodes rest2, ids, (e : Rat)⟩, BinopPrecedence⟩) := by
  have g45 : GetTokPrecedence 45 BinopPrecedence = (30, BinopPrecedence) := by decide
  have gEof : GetTokPrecedence tok_eof BinopPrecedence = (-1, BinopPrecedence) := by
    decide
  conv_lhs => rw [ParseBinOpRHS]
  dsimp only
  rw [g45]
  dsimp only
  rw [if_neg (by decide : ¬(30 : Int) < 0)]
  rw [getNextToken]
  dsimp only
  cases rest with
  | nil =>
    rw [chainCodes, gettok_digit_nil e he ids nv]
    dsimp only
    rw [ParsePrimary]
    rw [if_neg (by decide : ¬tok_number = tok_identifier), if_pos rfl]
    rw [ParseNumberExpr, getNextToken]
    dsimp only
    rw [gettok_eof_end]
    dsimp only
    rw [gEof]
    dsimp only
    rw [if_neg (by decide : ¬(30 : Int) < -1)]
  | cons d rest2 =>
    rw [chainCodes, gettok_digit_minus e he _ ids nv]
    dsimp only
    rw [ParsePrimary]
    rw [if_neg (by decide : ¬tok_number = tok_identifier), if_pos rfl]
    rw [ParseNumberExpr, getNextToken]
    dsimp only
    rw [gettok_minus_cons]
    dsimp only
    rw [g45]
    dsimp only
    rw [if_neg (by decide : ¬(30 : Int) < 30)]

/-- At end of input the precedence-climbing loop returns its accumulated
left-hand side. -/
theorem binop_chain_end (lhs : ExprAST) (ids : String) (nv : Rat) (f : Nat) :
    ParseBinOpRHS (f + 1) 0 lhs ⟨tok_eof, ⟨-1, [], ids, nv⟩, BinopPrecedence⟩ =
      some (Except.ok lhs, ⟨tok_eof, ⟨-1, [], ids, nv⟩, BinopPrecedence⟩) := by
  have gEof : GetTokPrecedence tok_eof BinopPrecedence = (-1, BinopPrecedence) := by
    decide
  conv_lhs => rw [ParseBinOpRHS]
  dsimp only
  rw [gEof]
  dsimp only
  rw [if_pos (by decide : (-1 : Int) < 0)]

/-- The precedence-climbing loop over a whole equal-precedence chain builds
the strictly left-associated tree. -/
theorem binop_chain : ∀ (rest : List Nat), (∀ d ∈ rest, d < 10) → ∀ (e : Nat), e < 10 →
    ∀ (lhs : ExprAST) (ids : String) (nv : Rat) (f : Nat), rest.length + 2 ≤ f →
    (ParseBinOpRHS f 0 lhs
        ⟨45, ⟨48 + (e : Int), chainCodes rest, ids, nv⟩, BinopPrecedence⟩).map Prod.fst =
      some (Except.ok (chainAST lhs (e :: rest))) := by
  intro rest
  induction rest with
  | nil =>
    intro _ e he lhs ids nv f hf
    obtain ⟨g, rfl⟩ : ∃ g, f = g + 2 := ⟨f - 2, by omega⟩
    rw [binop_chain_step e he [] lhs ids nv g]
    rw [binop_chain_end]
    rfl
  | cons d rest2 ih =>
    intro hds e he lhs ids nv f hf
    obtain ⟨g, rfl⟩ : ∃ g, f = g + 2 := ⟨f - 2, by omega⟩
    rw [binop_chain_step e he (d :: rest2) lhs ids nv g]
    have hd : d < 10 := hds d (by simp)
    have hds2 : ∀ x ∈ rest2, x < 10 := fun x hx => hds x (by simp [hx])
    have hlen : rest2.length + 2 ≤ g + 1 := by
      simp only [List.length_cons] at hf
      omega
    exact ih hds2 d hd
      (ExprAST.BinaryExprAST 45 lhs (ExprAST.NumberExprAST (e : Rat))) ids (e : Rat)
      (g + 1) hlen

/-- The initial space pending in `LastChar` is skipped before the first
character of the input. -/
theorem gettok_space_step (c : Int) (l : List Int) (ids : String) (nv : Rat) :
    gettok ⟨32, c :: l, ids, nv⟩ = gettok ⟨c, l, ids, nv⟩ := by
  rw [gettok, gettok]
  dsimp only
  rw [skipJunk_false_space (by decide : isspace (32 : Int) = true)]

/-- C2.  Equal precedence associates strictly to the left: `1-2-3` parses as
`(1-2)-3` (token value of `-` is 45), and in general every chain of
single-digit numbers joined by the equal-precedence operator `-` parses
to the strictly left-associated tree, each later operator taking the
tree built from the earlier ones as its left child. -/
theorem parse_left_assoc :
    (ParseExpression 64 (initPSt "1-2-3")).map Prod.fst =
      some (Except.ok (ExprAST.BinaryExprAST 45
        (ExprAST.BinaryExprAST 45 (ExprAST.NumberExprAST 1) (ExprAST.NumberExprAST 2))
        (ExprAST.NumberExprAST 3))) ∧
    ∀ (d0 : Nat) (ds : List Nat), d0 < 10 → (∀ d ∈ ds, d < 10) →
      ∀ f : Nat, ds.length + 4 ≤ f →
      (ParseExpression f (getNextToken
          ⟨0, ⟨32, (48 + (d0 : Int)) :: chainCodes ds, "", 0⟩,
           BinopPrecedence⟩)).map Prod.fst =
        some (Except.ok (chainAST (ExprAST.NumberExprAST (d0 : Rat)) ds)) := by
  refine ⟨rfl, ?_⟩
  intro d0 ds h0 hds f hf
  rw [getNextToken]
  dsimp only
  rw [gettok_space_step]
  cases ds with
  | nil =>
    rw [chainCodes, gettok_digit_nil d0 h0 "" 0]
    dsimp only
    obtain ⟨g, rfl⟩ : ∃ g, f = g + 2 := ⟨f - 2, by omega⟩
    rw [ParseExpression, ParsePrimary]
    rw [if_neg (by decide : ¬tok_number = tok_identifier), if_pos rfl]
    rw [ParseNumberExpr, getNextToken]
    dsimp only
    rw [gettok_eof_end]
    dsimp only
    rw [binop_chain_end]
    rfl
  | cons e rest =>
    rw [chainCodes, gettok_digit_minus d0 h0 _ "" 0]
    dsimp only
    obtain ⟨g, rfl⟩ : ∃ g, f = g + 2 := ⟨f - 2, by omega⟩
    rw [ParseExpression, ParsePrimary]
    rw [if_neg (by decide : ¬tok_number = tok_identifier), if_pos rfl]
    rw [ParseNumberExpr, getNextToken]
    dsimp only
    rw [gettok_minus_cons]
    dsimp only
    have he : e < 10 := hds e (by simp)
    have hrest : ∀ x ∈ rest, x < 10 := fun x hx => hds x (by simp [hx])
    have hlen : rest.length + 2 ≤ g + 1 := by
      simp only [List.length_cons] at hf
      omega
    exact binop_chain rest hrest e he (ExprAST.NumberExprAST (d0 : Rat)) "" (d0 : Rat)
      (g + 1) hlen

/-- Witness for the general conjunct of C2 at the chain `1-2-3`. -/
theorem parse_left_assoc_w :
    (ParseExpression 20 (getNextToken
        ⟨0, ⟨32, (48 + ((1 : Nat) : Int)) :: chainCodes [2, 3], "", 0⟩,
         BinopPrecedence⟩)).map Prod.fst =
      some (Except.ok (chainAST (ExprAST.NumberExprAST ((1 : Nat) : Rat)) [2, 3])) :=
  parse_left_assoc.2 1 [2, 3] (by decide) (by decide) 20 (by decide)
